import Mathlib

/-!
Verification development for the installation-plan resolver of an
npm-compatible installer (`constructInstallationPlan` and its helpers in
`src/unnamed/part_000`, with the `construct-plan.ts` and
`construct-plan-v3.ts` variants of `getCachedPackageInfo`).

The TypeScript source is shallowly embedded: the mutable closure state
(`installationPlan`, `dependencyMap`, `packageInfoCache`,
`versionUsageCount`) becomes an explicit `PlanState` record threaded
through the recursion; JavaScript exceptions become an `Option PlanError`
result that short-circuits exactly as `throw` unwinds; the unbounded
recursion of `processDependency` is driven by a fuel parameter (the JS
code can genuinely diverge on cyclic dependency graphs, since the install
location grows at every level).

The third-party `semver` library is modelled concretely for the fragment
of its behaviour the resolver relies on: dotted `major.minor.patch`
version strings, `^`/`~`/exact/`*` range alternatives joined by `||`,
`maxSatisfying` as "highest parsed version satisfying the range", and
`validRange` as "some input string iff every alternative parses".
All string splitting is done over `List Char` so that the hoisting pass's
`pkgVersion.split('@')` behaviour is provable by list induction.
-/

/-! ## Model of the semver library fragment used by the resolver -/

/-- A parsed `major.minor.patch` semantic version. Pre-release and build
suffixes are outside the modelled fragment. -/
structure SemVer where
  major : Nat
  minor : Nat
  patch : Nat
deriving DecidableEq, Repr

/-- Strict semver precedence on the modelled `major.minor.patch` triples. -/
def semverLt (a b : SemVer) : Bool :=
  decide (a.major < b.major) ||
    (decide (a.major = b.major) &&
      (decide (a.minor < b.minor) ||
        (decide (a.minor = b.minor) && decide (a.patch < b.patch))))

/-- Non-strict semver precedence. -/
def semverLe (a b : SemVer) : Bool :=
  decide (a = b) || semverLt a b

/-- Split a character list at every occurrence of a one-character
separator, like JavaScript's `String.prototype.split` with a
one-character separator (so `"a@b@c".split('@') = ["a","b","c"]` and a
string without the separator yields a single part). -/
def splitList (sep : Char) : List Char → List (List Char)
  | [] => [[]]
  | c :: rest =>
    if c = sep then [] :: splitList sep rest
    else
      match splitList sep rest with
      | [] => [[c]]
      | h :: t => (c :: h) :: t

/-- Numeric value of a digit list, most significant digit first. -/
def digitsVal (l : List Char) : Nat :=
  l.foldl (fun acc c => acc * 10 + (c.toNat - 48)) 0

/-- Parse a non-empty all-digit character list as a natural number. -/
def parseNatL (l : List Char) : Option Nat :=
  if l.isEmpty then none
  else if l.all Char.isDigit then some (digitsVal l) else none

/-- Parse a `major.minor.patch` character list as a `SemVer`. -/
def parseSemVerL (l : List Char) : Option SemVer :=
  match splitList '.' l with
  | [a, b, c] =>
    match parseNatL a with
    | none => none
    | some x =>
      match parseNatL b with
      | none => none
      | some y =>
        match parseNatL c with
        | none => none
        | some z => some ⟨x, y, z⟩
  | _ => none

/-- One alternative of a range disjunction: `*` (or the empty range),
`^v`, `~v`, or an exact version. -/
inductive RangeAlt where
  | anyV : RangeAlt
  | caret : SemVer → RangeAlt
  | tilde : SemVer → RangeAlt
  | exact : SemVer → RangeAlt
deriving DecidableEq, Repr

/-- Does a concrete version satisfy one range alternative, following
npm's caret/tilde semantics on `major.minor.patch` triples? -/
def satisfiesAlt (v : SemVer) : RangeAlt → Bool
  | RangeAlt.anyV => true
  | RangeAlt.exact b => decide (v = b)
  | RangeAlt.caret b =>
    if 0 < b.major then decide (v.major = b.major) && semverLe b v
    else if 0 < b.minor then
      decide (v.major = 0) && decide (v.minor = b.minor) && semverLe b v
    else decide (v = b)
  | RangeAlt.tilde b =>
    decide (v.major = b.major) && decide (v.minor = b.minor) &&
      decide (b.patch ≤ v.patch)

/-- Split a character list at every occurrence of the two-character
separator `||`. -/
def splitBars : List Char → List (List Char)
  | [] => [[]]
  | '|' :: '|' :: rest => [] :: splitBars rest
  | c :: rest =>
    match splitBars rest with
    | [] => [[c]]
    | h :: t => (c :: h) :: t

/-- Drop leading and trailing spaces. -/
def trimL (l : List Char) : List Char :=
  ((l.dropWhile (· = ' ')).reverse.dropWhile (· = ' ')).reverse

/-- Parse one trimmed range alternative. -/
def parseAlt : List Char → Option RangeAlt
  | [] => some RangeAlt.anyV
  | ['*'] => some RangeAlt.anyV
  | '^' :: rest => (parseSemVerL rest).map RangeAlt.caret
  | '~' :: rest => (parseSemVerL rest).map RangeAlt.tilde
  | l => (parseSemVerL l).map RangeAlt.exact

/-- Parse every alternative or fail. -/
def parseAlts : List (List Char) → Option (List RangeAlt)
  | [] => some []
  | p :: rest =>
    match parseAlt p, parseAlts rest with
    | some a, some r => some (a :: r)
    | _, _ => none

/-- Parse a full range expression (a `||`-disjunction of alternatives). -/
def parseRange (range : String) : Option (List RangeAlt) :=
  parseAlts ((splitBars range.data).map trimL)

/-- Does a parsed version satisfy a range string? An unparseable range is
satisfied by nothing, matching the observable behaviour of
`semver.maxSatisfying` on invalid ranges (it returns `null`). -/
def satisfiesV (v : SemVer) (range : String) : Bool :=
  match parseRange range with
  | some alts => alts.any (satisfiesAlt v)
  | none => false

/-- Does a version string parse and satisfy a range string? -/
def versionSatisfies (vs range : String) : Bool :=
  match parseSemVerL vs.data with
  | some v => satisfiesV v range
  | none => false

/-- Model of `semver.validRange`: `some` of the range iff every
alternative parses. (npm returns a normalised serialisation; the
identity is satisfaction-equivalent and the resolver never re-reads the
merged range, so the exact serialisation is irrelevant.) -/
def validRange (range : String) : Option String :=
  match parseRange range with
  | some _ => some range
  | none => none

/-- The version-string/parsed-version candidates of `maxSatisfying`:
versions that parse and satisfy the range, in input order. -/
def maxCands (versions : List String) (range : String) :
    List (String × SemVer) :=
  versions.filterMap (fun s =>
    match parseSemVerL s.data with
    | some v => if satisfiesV v range then some (s, v) else none
    | none => none)

/-- Keep the later candidate iff it is strictly higher (so the first
occurrence of the maximal version wins, like npm's `maxSatisfying`). -/
def pickBest (best x : String × SemVer) : String × SemVer :=
  if semverLt best.2 x.2 then x else best

/-- Model of `semver.maxSatisfying`: the highest version string in the
list that parses and satisfies the range, or `none`. -/
def maxSatisfying (versions : List String) (range : String) :
    Option String :=
  match maxCands versions range with
  | [] => none
  | c :: cs => some ((cs.foldl pickBest c).1)

/-! ## Data model

`InstallationPlan`, `DependencyInstallation` and `Dependency` come from
the repository's `types` module, which is not under `src/`; their shapes
are modelled from the spec (§3, §6) and from every field access in
`construct-plan`. -/

/-- Modelled from the spec: an unresolved dependency reference
`{name, version}` as consumed by `processDependency` (the `version`
field holds a range string). -/
structure Dependency where
  name : String
  version : String
deriving DecidableEq, Repr

/-- Modelled from the spec: one installation-plan entry
`{name, version, parentDirectory}`; `parentDirectory` is `undefined`
(`none`) for top-level dependencies. -/
structure PlanEntry where
  name : String
  version : String
  parentDirectory : Option String
deriving DecidableEq, Repr

/-- One `dependencyMap` value. `versionRange` is `Option` because the
merge branch stores the raw result of `semver.validRange(...)`, whose
`null` the TypeScript non-null assertion merely casts away. The
`firstRange` field is ghost instrumentation: it records the range under
which the slot was first sighted and is never modified afterwards
(the merge branch only overwrites `versionRange`). -/
structure DepMapEntry where
  name : String
  versionRange : Option String
  parentDirectory : Option String
  firstRange : String
deriving DecidableEq, Repr

/-- One `versionUsageCount` value (`PackageVersionInfo` in the source).
`gName`/`gVersion` are ghost fields recording the package name and
resolved version whose concatenation `name ++ "@" ++ version` formed the
ledger key; they are set when the record is created and never changed. -/
structure PackageVersionInfo where
  count : Nat
  parentDirectories : List String
  gName : String
  gVersion : String
deriving DecidableEq, Repr

/-- The per-version object of a registry response / cache value: the
declared dependency manifest (absent in JSON ↦ `none`) plus a stand-in
for every other per-version registry field (dist URLs, etc.). -/
structure CachedVersionData where
  dependencies : Option (List (String × String))
  extra : List String
deriving DecidableEq, Repr

/-- A registry response body or metadata-cache value: the `versions`
mapping plus a stand-in for every other top-level response field
(description, dist-tags, etc.). -/
structure CachedInfo where
  versions : List (String × CachedVersionData)
  extra : List String
deriving DecidableEq, Repr

/-- The registry as a capability: `none` models a non-200 response. -/
def Registry := String → Option CachedInfo

/-- The errors thrown by the resolver, plus the fuel-exhaustion marker of
the embedding (the JS original would simply not terminate). -/
inductive PlanError where
  | fetchError : String → PlanError
  | unsatisfiableRange : String → PlanError
  | outOfFuel : PlanError
deriving DecidableEq, Repr

/-- The mutable closure state of one `constructInstallationPlan` call.
`fetchLog` is ghost instrumentation appending the package name at every
registry request issued (cache misses only); `persistentWrites` is ghost
instrumentation counting the cache-file writes of the
`construct-plan-v3.ts` variant. -/
structure PlanState where
  installationPlan : List PlanEntry
  dependencyMap : List (String × DepMapEntry)
  packageInfoCache : List (String × CachedInfo)
  versionUsageCount : List (String × PackageVersionInfo)
  fetchLog : List String
  persistentWrites : Nat
deriving DecidableEq, Repr

/-- The all-empty state every call starts from. -/
def initState : PlanState := ⟨[], [], [], [], [], 0⟩

/-! ## Operations -/

/-- Insertion-ordered association-list lookup (JS `Map.get`). -/
def lookupA {β : Type} : List (String × β) → String → Option β
  | [], _ => none
  | (k', v) :: rest, k => if k' = k then some v else lookupA rest k

/-- JS `parentDirectory || 'root'` (`undefined` and the empty string are
both falsy). -/
def jsOrRoot : Option String → String
  | none => "root"
  | some s => if s = "" then "root" else s

/-- The `ResolutionKey`: `` `${parentDirectory || 'root'}##${name}` ``. -/
def depKeyOf (parentDirectory : Option String) (name : String) : String :=
  jsOrRoot parentDirectory ++ "##" ++ name

/-- The slot key of a plan entry. -/
def keyOf (e : PlanEntry) : String :=
  depKeyOf e.parentDirectory e.name

/-- The (name, version, parentDirectory) triple of a plan entry. -/
def tripleOf (e : PlanEntry) : String × String × Option String :=
  (e.name, e.version, e.parentDirectory)

/-- The merged range stored on a repeat sighting:
`semver.validRange(`existing.versionRange` || `dep.version`)`. A `null`
stored by a previous merge is stringified to `"null"` by the template
literal, exactly as in JS. -/
def mergeRanges (old : Option String) (newRange : String) : Option String :=
  validRange (old.getD "null" ++ " || " ++ newRange)

/-- In-place update of the stored range at one key (JS mutates the map
value; position and every other field are untouched). -/
def updateRange :
    List (String × DepMapEntry) → String → Option String →
      List (String × DepMapEntry)
  | [], _, _ => []
  | (k0, e0) :: rest, key, newRange =>
    (if k0 = key then (k0, { e0 with versionRange := newRange })
     else (k0, e0)) :: updateRange rest key newRange

/-- First sighting of a slot: record the `PendingResolution` for the key
(`dependencyMap.set(depKey, {name, versionRange, parentDirectory})`).
The ghost `firstRange` snapshots the range at this moment. -/
def insertDep (st : PlanState) (depKey : String) (dep : Dependency)
    (parentDirectory : Option String) : PlanState :=
  { st with
    dependencyMap := st.dependencyMap ++
      [(depKey,
        { name := dep.name, versionRange := some dep.version,
          parentDirectory := parentDirectory,
          firstRange := dep.version })] }

/-- The usage-ledger update for `(name, resolvedVersion)`:
create-on-missing, then `count++` and push the parent directory. -/
def bumpUsage (st : PlanState) (name resolvedVersion parentDir : String) :
    PlanState :=
  match lookupA st.versionUsageCount (name ++ "@" ++ resolvedVersion) with
  | some _ =>
    { st with
      versionUsageCount := st.versionUsageCount.map (fun p =>
        if p.1 = name ++ "@" ++ resolvedVersion then
          (p.1, { p.2 with
                  count := p.2.count + 1,
                  parentDirectories := p.2.parentDirectories ++ [parentDir] })
        else p) }
  | none =>
    { st with
      versionUsageCount := st.versionUsageCount ++
        [(name ++ "@" ++ resolvedVersion,
          { count := 1, parentDirectories := [parentDir],
            gName := name, gVersion := resolvedVersion })] }

/-- Append one `InstallationPlanEntry` to the plan. -/
def pushPlanEntry (st : PlanState) (name resolvedVersion : String)
    (parentDirectory : Option String) : PlanState :=
  { st with
    installationPlan := st.installationPlan ++
      [{ name := name, version := resolvedVersion,
         parentDirectory := parentDirectory }] }

/-- The dependency manifest of the resolved version
(`packageInfo.versions[resolvedVersion].dependencies || {}`). The `none`
outer case is unreachable on resolver states because `maxSatisfying`
returns one of the version keys. -/
def depsOfVersion (info : CachedInfo) (resolvedVersion : String) :
    List (String × String) :=
  match lookupA info.versions resolvedVersion with
  | some vi => vi.dependencies.getD []
  | none => []

/-- The child install location:
`parentDirectory ? path.join(parentDirectory, 'node_modules', dep.name) : dep.name`
(the empty string is falsy in JS; `path.join` is modelled as `/`-joining,
which agrees with it on the slash-free package-name segments the resolver
produces). -/
def childDirOf (parentDirectory : Option String) (depName : String) :
    String :=
  match parentDirectory with
  | some p => if p = "" then depName else p ++ "/node_modules/" ++ depName
  | none => depName

/-- A metadata-fetch capability: the three `getCachedPackageInfo`
variants all have this shape. -/
def FetchFn : Type :=
  String → PlanState → PlanState × Except PlanError CachedInfo

/-- Keep only `{versions: {v: {dependencies}}}` from a registry response
(`part_000` lines 51-57; the `dependencies` field is kept as-is, possibly
absent). -/
def minimizeResponse (allData : CachedInfo) : CachedInfo :=
  { versions := allData.versions.map (fun kv =>
      (kv.1, { dependencies := kv.2.dependencies, extra := [] })),
    extra := [] }

/-- `getCachedPackageInfo` of `src/unnamed/part_000`: in-memory
read-through cache over the registry; a non-200 response throws
`Failed to fetch metadata`; on success only the minimised
versions/dependencies data is cached. The request is logged at issue
time, before the status check. -/
def getCachedPackageInfo (reg : Registry) (packageName : String)
    (st : PlanState) : PlanState × Except PlanError CachedInfo :=
  match lookupA st.packageInfoCache packageName with
  | some info => (st, Except.ok info)
  | none =>
    match reg packageName with
    | none =>
      ({ st with fetchLog := st.fetchLog ++ [packageName] },
       Except.error (PlanError.fetchError packageName))
    | some allData =>
      ({ st with
         packageInfoCache := st.packageInfoCache ++
           [(packageName, minimizeResponse allData)],
         fetchLog := st.fetchLog ++ [packageName] },
       Except.ok (minimizeResponse allData))

/-- `getCachedPackageInfo` of `src/src/commands/install/construct-plan.ts`:
identical except that the full response body is cached unminimised
(`packageInfoCache.set(packageName, data)`). -/
def getCachedPackageInfoV1 (reg : Registry) (packageName : String)
    (st : PlanState) : PlanState × Except PlanError CachedInfo :=
  match lookupA st.packageInfoCache packageName with
  | some info => (st, Except.ok info)
  | none =>
    match reg packageName with
    | none =>
      ({ st with fetchLog := st.fetchLog ++ [packageName] },
       Except.error (PlanError.fetchError packageName))
    | some data =>
      ({ st with
         packageInfoCache := st.packageInfoCache ++ [(packageName, data)],
         fetchLog := st.fetchLog ++ [packageName] },
       Except.ok data)

/-- The v3 minimisation (`construct-plan-v3.ts` lines 63-71): like
`minimizeResponse` but an absent `dependencies` is defaulted to `{}`. -/
def minimizeResponseV3 (data : CachedInfo) : CachedInfo :=
  { versions := data.versions.map (fun kv =>
      (kv.1, { dependencies := some (kv.2.dependencies.getD []),
               extra := [] })),
    extra := [] }

/-- `getCachedPackageInfo` of
`src/src/commands/install/construct-plan-v3.ts`: the in-memory map is
seeded from the persistent cache file (modelled as the initial
`packageInfoCache`), and every successful miss additionally rewrites the
cache file (counted by the ghost `persistentWrites`). -/
def getCachedPackageInfoV3 (reg : Registry) (packageName : String)
    (st : PlanState) : PlanState × Except PlanError CachedInfo :=
  match lookupA st.packageInfoCache packageName with
  | some info => (st, Except.ok info)
  | none =>
    match reg packageName with
    | none =>
      ({ st with fetchLog := st.fetchLog ++ [packageName] },
       Except.error (PlanError.fetchError packageName))
    | some data =>
      ({ st with
         packageInfoCache := st.packageInfoCache ++
           [(packageName, minimizeResponseV3 data)],
         fetchLog := st.fetchLog ++ [packageName],
         persistentWrites := st.persistentWrites + 1 },
       Except.ok (minimizeResponseV3 data))

/-- The two recursion shapes of the dependency walk: processing one
`(dependency, installLocation)` node, or the `for`-loop over the child
manifest of a node. -/
inductive Job where
  | dep : Dependency → Option String → Job
  | children : String → Option String → List (String × String) → Job

/-- The recursive dependency walk (`processDependency` and its child
loop), fuel-driven. Arm 2 is `processDependency`: on a repeat sighting of
the slot key only the stored range is replaced by the re-validated
disjunction; on first sighting the `PendingResolution` is recorded, the
metadata is fetched, the version resolved (`resolveVersion`'s throw on a
`null` result is the `unsatisfiableRange` error), the usage ledger
bumped, the plan entry appended and the children walked. Arms 3-4 are the
`for (const [childName, childVersionRange] of childDeps)` loop. -/
def walk (f : FetchFn) :
    Nat → Job → PlanState → PlanState × Option PlanError
  | 0, _, st => (st, some PlanError.outOfFuel)
  | fuel + 1, Job.dep dep parentDirectory, st =>
    match lookupA st.dependencyMap (depKeyOf parentDirectory dep.name) with
    | some existing =>
      ({ st with
         dependencyMap := updateRange st.dependencyMap
           (depKeyOf parentDirectory dep.name)
           (mergeRanges existing.versionRange dep.version) }, none)
    | none =>
      match f dep.name
          (insertDep st (depKeyOf parentDirectory dep.name) dep
            parentDirectory) with
      | (st2, Except.error e) => (st2, some e)
      | (st2, Except.ok packageInfo) =>
        match maxSatisfying (packageInfo.versions.map Prod.fst)
            dep.version with
        | none => (st2, some (PlanError.unsatisfiableRange dep.version))
        | some resolvedVersion =>
          walk f fuel
            (Job.children dep.name parentDirectory
              (depsOfVersion packageInfo resolvedVersion))
            (pushPlanEntry
              (bumpUsage st2 dep.name resolvedVersion
                (jsOrRoot parentDirectory))
              dep.name resolvedVersion parentDirectory)
  | _ + 1, Job.children _ _ [], st => (st, none)
  | fuel + 1,
      Job.children depName parentDirectory
        ((childName, childVersionRange) :: rest), st =>
    match walk f fuel
        (Job.dep { name := childName, version := childVersionRange }
          (some (childDirOf parentDirectory depName))) st with
    | (st', some e) => (st', some e)
    | (st', none) => walk f fuel (Job.children depName parentDirectory rest) st'

/-- `processDependency(dep, parentDirectory)` on a given state. -/
def processDependency (f : FetchFn) (fuel : Nat) (dep : Dependency)
    (parentDirectory : Option String) (st : PlanState) :
    PlanState × Option PlanError :=
  walk f fuel (Job.dep dep parentDirectory) st

/-- The `for` loop over `Object.entries(topLevelDependencies)`. -/
def processTopLevelDeps (f : FetchFn) (fuel : Nat) :
    List (String × String) → PlanState → PlanState × Option PlanError
  | [], st => (st, none)
  | (name, versionRange) :: rest, st =>
    match walk f fuel (Job.dep { name := name, version := versionRange } none)
        st with
    | (st', some e) => (st', some e)
    | (st', none) => processTopLevelDeps f fuel rest st'

/-- `pkgVersion.split('@')[0]` of a ledger key (the `name` the hoisting
pass destructures). -/
def hoistName (pkgVersion : String) : String :=
  String.mk ((splitList '@' pkgVersion.data).headD [])

/-- `pkgVersion.split('@')[1]` of a ledger key (the `version` the
hoisting pass destructures). An absent second part — impossible for keys
the resolver builds — is modelled as the empty string. -/
def hoistVersion (pkgVersion : String) : String :=
  String.mk (((splitList '@' pkgVersion.data).drop 1).headD [])

/-- The predicate of the hoisting pass's `installationPlan.find`:
same name, same version, and `parentDirectory === 'root'` (the literal
string; a top-level entry's `undefined` does not match). -/
def rootMatch (name version : String) (item : PlanEntry) : Bool :=
  decide (item.name = name ∧ item.version = version ∧
    item.parentDirectory = some "root")

/-- The Hoisting Pass (`part_000` lines 145-160): for every ledger key,
split it on `@`, and append a `{name, version, parentDirectory: 'root'}`
entry unless one is already in the plan. -/
def hoistPass :
    List (String × PackageVersionInfo) → List PlanEntry → List PlanEntry
  | [], plan => plan
  | (pkgVersion, _) :: rest, plan =>
    if plan.any (rootMatch (hoistName pkgVersion) (hoistVersion pkgVersion))
    then hoistPass rest plan
    else
      hoistPass rest (plan ++
        [{ name := hoistName pkgVersion, version := hoistVersion pkgVersion,
           parentDirectory := some "root" }])

/-- One full `constructInstallationPlan` run of `part_000`, exposing the
final state (including ghost fields) next to the outcome. -/
def runPlan (reg : Registry) (fuel : Nat)
    (topLevelDependencies : List (String × String)) :
    PlanState × Option PlanError :=
  match processTopLevelDeps (getCachedPackageInfo reg) fuel
      topLevelDependencies initState with
  | (st, some e) => (st, some e)
  | (st, none) =>
    ({ st with
       installationPlan := hoistPass st.versionUsageCount
         st.installationPlan }, none)

/-- `constructInstallationPlan` of `src/unnamed/part_000`: the returned
plan on success, the thrown error otherwise. -/
def constructInstallationPlan (reg : Registry) (fuel : Nat)
    (topLevelDependencies : List (String × String)) :
    Except PlanError (List PlanEntry) :=
  match runPlan reg fuel topLevelDependencies with
  | (_, some e) => Except.error e
  | (st, none) => Except.ok st.installationPlan

/-- A v3 run starts from the persistent cache file's contents. -/
def initStateV3 (fileCache : List (String × CachedInfo)) : PlanState :=
  { initState with packageInfoCache := fileCache }

/-- One full `constructInstallationPlan` run of `construct-plan-v3.ts`
(no hoisting pass in that variant), exposing the final state. -/
def runPlanV3 (reg : Registry) (fileCache : List (String × CachedInfo))
    (fuel : Nat) (topLevelDependencies : List (String × String)) :
    PlanState × Option PlanError :=
  processTopLevelDeps (getCachedPackageInfoV3 reg) fuel
    topLevelDependencies (initStateV3 fileCache)

/-- `constructInstallationPlan` of `construct-plan-v3.ts`. -/
def constructInstallationPlanV3 (reg : Registry)
    (fileCache : List (String × CachedInfo)) (fuel : Nat)
    (topLevelDependencies : List (String × String)) :
    Except PlanError (List PlanEntry) :=
  match runPlanV3 reg fileCache fuel topLevelDependencies with
  | (_, some e) => Except.error e
  | (st, none) => Except.ok st.installationPlan

/-! ## Concrete scenarios used by the claim theorems and witnesses -/

/-- Scenario 1 registry: package `a` with versions 1.0.0, 1.2.0 and
2.0.0, none of which declares dependencies. -/
def sc1Reg : Registry := fun n =>
  if n = "a" then
    some { versions := [("1.0.0", { dependencies := none, extra := [] }),
                        ("1.2.0", { dependencies := none, extra := [] }),
                        ("2.0.0", { dependencies := none, extra := [] })],
           extra := [] }
  else none

/-- Scenario 1 top-level dependency map. -/
def sc1Deps : List (String × String) := [("a", "^1.0.0")]

/-- A registry on which the hoisting pass violates range satisfaction:
`a@1.0.0` declares a nested dependency on `a@2.0.0`, so hoisting offers
`a@2.0.0` a root slot although the root slot of `a` was first sighted
under the range `1.0.0`. -/
def ce1Reg : Registry := fun n =>
  if n = "a" then
    some { versions :=
            [("1.0.0",
              { dependencies := some [("a", "2.0.0")], extra := [] }),
             ("2.0.0", { dependencies := none, extra := [] })],
           extra := [] }
  else none

/-- Top-level dependency map for `ce1Reg`. -/
def ce1Deps : List (String × String) := [("a", "1.0.0")]

/-- A registry where the transitive dependency `b` of `a@1.0.0` has no
registry entry, so its metadata fetch gets a non-200 response. -/
def c7Reg : Registry := fun n =>
  if n = "a" then
    some { versions :=
            [("1.0.0",
              { dependencies := some [("b", "^1.0.0")], extra := [] })],
           extra := [] }
  else none

/-- Top-level dependency map for `c7Reg`. -/
def c7Deps : List (String × String) := [("a", "^1.0.0")]

/-- A registry response carrying extra fields at both levels, to observe
what each cache variant stores. -/
def ce8Reg : Registry := fun n =>
  if n = "a" then
    some { versions := [("1.0.0", { dependencies := none,
                                    extra := ["dist"] })],
           extra := ["description"] }
  else none

/-- A state whose dependency map already holds the slot `root##a`, for
exercising the merge branch of `processDependency` on its own. -/
def w4St : PlanState :=
  { initState with
    dependencyMap := [("root##a",
      { name := "a", versionRange := some "^1.0.0",
        parentDirectory := none, firstRange := "^1.0.0" })] }

/-- The registry that answers nothing. -/
def emptyReg : Registry := fun _ => none

/-! ## Association-list lemmas -/

theorem lookupA_append_left {β : Type} (m1 m2 : List (String × β))
    (k : String) (v : β) (h : lookupA m1 k = some v) :
    lookupA (m1 ++ m2) k = some v := by
  induction m1 with
  | nil => simp [lookupA] at h
  | cons p rest ih =>
    obtain ⟨k0, v0⟩ := p
    simp only [lookupA, List.cons_append] at h ⊢
    by_cases hk : k0 = k
    · simpa [hk] using h
    · simp only [hk, if_false] at h ⊢
      exact ih h

theorem lookupA_append_right {β : Type} (m1 m2 : List (String × β))
    (k : String) (h : lookupA m1 k = none) :
    lookupA (m1 ++ m2) k = lookupA m2 k := by
  induction m1 with
  | nil => simp [lookupA]
  | cons p rest ih =>
    obtain ⟨k0, v0⟩ := p
    simp only [lookupA, List.cons_append] at h ⊢
    by_cases hk : k0 = k
    · simp [hk] at h
    · simp only [hk, if_false] at h ⊢
      exact ih h

theorem lookupA_singleton (k : String) {β : Type} (v : β) :
    lookupA [(k, v)] k = some v := by
  simp [lookupA]

theorem lookupA_updateRange (m : List (String × DepMapEntry)) (key : String)
    (r : Option String) (k : String) :
    lookupA (updateRange m key r) k =
      (lookupA m k).map (fun ent =>
        if k = key then { ent with versionRange := r } else ent) := by
  induction m with
  | nil => simp [lookupA, updateRange]
  | cons p rest ih =>
    obtain ⟨k0, e0⟩ := p
    by_cases h0 : k0 = key
    · subst h0
      simp only [updateRange, if_pos rfl]
      by_cases hk : k0 = k
      · subst hk
        simp [lookupA]
      · simp [lookupA, hk, ih]
    · simp only [updateRange, if_neg h0]
      by_cases hk : k0 = k
      · subst hk
        simp [lookupA, h0]
      · simp [lookupA, hk, ih]

theorem nodup_append_single {α : Type} (l : List α) (a : α) :
    (l ++ [a]).Nodup ↔ l.Nodup ∧ a ∉ l := by
  constructor
  · intro h
    rcases List.nodup_append.mp h with ⟨h1, _, hd⟩
    exact ⟨h1, fun hm => hd hm (List.mem_singleton_self a)⟩
  · intro ⟨h1, h2⟩
    exact List.nodup_append.mpr
      ⟨h1, List.nodup_singleton a,
       fun x hx hxa => h2 ((List.mem_singleton.mp hxa) ▸ hx)⟩

/-! ## Lemmas about the semver model -/

theorem foldl_pickBest_mem (cs : List (String × SemVer)) (c : String × SemVer) :
    cs.foldl pickBest c = c ∨ cs.foldl pickBest c ∈ cs := by
  induction cs generalizing c with
  | nil => left; rfl
  | cons x xs ih =>
    simp only [List.foldl_cons]
    rcases ih (pickBest c x) with h | h
    · rw [h]
      unfold pickBest
      split
      · right; exact List.mem_cons_self _ _
      · left; rfl
    · right; exact List.mem_cons_of_mem _ h

theorem maxSatisfying_spec (versions : List String) (range s : String)
    (h : maxSatisfying versions range = some s) :
    s ∈ versions ∧
      ∃ v, parseSemVerL s.data = some v ∧ satisfiesV v range = true := by
  unfold maxSatisfying at h
  cases hc : maxCands versions range with
  | nil => rw [hc] at h; exact absurd h (by simp)
  | cons c cs =>
    rw [hc] at h
    simp only [Option.some.injEq] at h
    have hmem : cs.foldl pickBest c ∈ maxCands versions range := by
      rw [hc]
      rcases foldl_pickBest_mem cs c with h' | h'
      · rw [h']; exact List.mem_cons_self _ _
      · exact List.mem_cons_of_mem _ h'
    unfold maxCands at hmem
    rw [List.mem_filterMap] at hmem
    obtain ⟨a, ha, hfa⟩ := hmem
    cases hp : parseSemVerL a.data with
    | none => rw [hp] at hfa; exact absurd hfa (by simp)
    | some pv =>
      rw [hp] at hfa
      dsimp only at hfa
      by_cases hsat : satisfiesV pv range = true
      · rw [if_pos hsat] at hfa
        have he : (a, pv) = cs.foldl pickBest c := Option.some.inj hfa
        have hs_eq : s = a := by rw [← h, ← he]
        subst hs_eq
        exact ⟨ha, pv, hp, hsat⟩
      · rw [if_neg hsat] at hfa
        exact absurd hfa (by simp)

theorem versionSatisfies_of (s r : String) (v : SemVer)
    (h1 : parseSemVerL s.data = some v) (h2 : satisfiesV v r = true) :
    versionSatisfies s r = true := by
  unfold versionSatisfies
  rw [h1]
  exact h2

theorem maxSatisfying_versionSatisfies (versions : List String)
    (range s : String) (h : maxSatisfying versions range = some s) :
    versionSatisfies s range = true := by
  obtain ⟨_, v, hp, hs⟩ := maxSatisfying_spec versions range s h
  exact versionSatisfies_of s range v hp hs

/-! ## Lemmas about character-list splitting -/

theorem splitList_ne_nil (sep : Char) (l : List Char) :
    splitList sep l ≠ [] := by
  cases l with
  | nil => simp [splitList]
  | cons c rest =>
    simp only [splitList]
    split
    · simp
    · split <;> simp

theorem splitList_chars (sep : Char) (l : List Char) (c : Char) (h : c ∈ l) :
    c = sep ∨ ∃ p ∈ splitList sep l, c ∈ p := by
  induction l with
  | nil => simp at h
  | cons a rest ih =>
    rcases List.mem_cons.mp h with rfl | hr
    · by_cases ha : c = sep
      · left; exact ha
      · right
        simp only [splitList, if_neg ha]
        cases hs : splitList sep rest with
        | nil => exact absurd hs (splitList_ne_nil sep rest)
        | cons ph pt =>
          exact ⟨c :: ph, List.mem_cons_self _ _, List.mem_cons_self _ _⟩
    · rcases ih hr with hsep | ⟨p, hp, hcp⟩
      · left; exact hsep
      · right
        by_cases ha : a = sep
        · simp only [splitList, if_pos ha]
          exact ⟨p, List.mem_cons_of_mem _ hp, hcp⟩
        · simp only [splitList, if_neg ha]
          cases hs : splitList sep rest with
          | nil => exact absurd hs (splitList_ne_nil sep rest)
          | cons ph pt =>
            rw [hs] at hp
            rcases List.mem_cons.mp hp with rfl | hpt
            · exact ⟨a :: p, List.mem_cons_self _ _,
                List.mem_cons_of_mem _ hcp⟩
            · exact ⟨p, List.mem_cons_of_mem _ hpt, hcp⟩

theorem splitList_not_mem (sep : Char) (l : List Char) (h : sep ∉ l) :
    splitList sep l = [l] := by
  induction l with
  | nil => rfl
  | cons a rest ih =>
    have ha : ¬ (a = sep) := fun e => h (e ▸ List.mem_cons_self a rest)
    have hr : sep ∉ rest := fun m => h (List.mem_cons_of_mem _ m)
    simp only [splitList, if_neg ha, ih hr]

theorem splitList_append (sep : Char) (n v : List Char) (hn : sep ∉ n) :
    splitList sep (n ++ sep :: v) = n :: splitList sep v := by
  induction n with
  | nil => simp [splitList]
  | cons a m ih =>
    have ha : ¬ (a = sep) := fun e => hn (e ▸ List.mem_cons_self a m)
    have hm : sep ∉ m := fun x => hn (List.mem_cons_of_mem _ x)
    simp only [List.cons_append, splitList, if_neg ha, List.append_eq, ih hm]

/-! ## Lemmas about version-string parsing -/

theorem parseNatL_digits (l : List Char) (x : Nat) (h : parseNatL l = some x) :
    ∀ c ∈ l, c.isDigit = true := by
  unfold parseNatL at h
  split at h
  · exact absurd h (by simp)
  · split at h
    · next hall => exact fun c hc => List.all_eq_true.mp hall c hc
    · exact absurd h (by simp)

theorem parseSemVer_no_at (l : List Char) (v : SemVer)
    (h : parseSemVerL l = some v) : '@' ∉ l := by
  intro hmem
  rcases splitList_chars '.' l '@' hmem with h1 | ⟨p, hp, hcp⟩
  · exact absurd h1 (by decide)
  · unfold parseSemVerL at h
    split at h
    · next a b c heq =>
      rw [heq] at hp
      have hdig : '@'.isDigit = true := by
        split at h
        · exact absurd h (by simp)
        · next x hx =>
          split at h
          · exact absurd h (by simp)
          · next y hy =>
            split at h
            · exact absurd h (by simp)
            · next z hz =>
              rcases List.mem_cons.mp hp with rfl | hp2
              · exact parseNatL_digits p x hx '@' hcp
              · rcases List.mem_cons.mp hp2 with rfl | hp3
                · exact parseNatL_digits p y hy '@' hcp
                · rcases List.mem_cons.mp hp3 with rfl | hp4
                  · exact parseNatL_digits p z hz '@' hcp
                  · exact absurd hp4 (by simp)
      exact absurd hdig (by decide)
    · exact absurd h (by simp)

/-- The string-level split-recovery fact behind the hoisting pass:
for `@`-free `n` and `v`, splitting `n ++ "@" ++ v` on `@` recovers
exactly `n` and `v`. -/
theorem hoist_split_recovers (n v : String)
    (hn : '@' ∉ n.data) (hv : '@' ∉ v.data) :
    hoistName (n ++ "@" ++ v) = n ∧ hoistVersion (n ++ "@" ++ v) = v := by
  have hdata : (n ++ "@" ++ v).data = n.data ++ '@' :: v.data := by
    cases n with
    | mk nd =>
      cases v with
      | mk vd => simp [String.data]
  have hsplit : splitList '@' (n ++ "@" ++ v).data = [n.data, v.data] := by
    rw [hdata, splitList_append '@' n.data v.data hn,
      splitList_not_mem '@' v.data hv]
  constructor
  · unfold hoistName
    rw [hsplit]
    rfl
  · unfold hoistVersion
    rw [hsplit]
    rfl

/-! ## The resolver state invariant -/

/-- Is a cache value fully minimised — no extra response fields at either
the top level or inside any version object? -/
def MinimalInfoB (c : CachedInfo) : Bool :=
  c.extra.isEmpty && c.versions.all (fun p => p.2.extra.isEmpty)

/-- The core invariant every reachable resolver state satisfies,
whatever the outcome: registry requests are never repeated, cached
metadata is minimised, every plan entry's slot is in the dependency map
and its version satisfies the slot's first-sighted range, plan entries
occupy pairwise distinct slots, and every ledger key is the
`name ++ "@" ++ version` of its ghost fields with a parseable version. -/
structure StCore (st : PlanState) : Prop where
  fetchNodup : st.fetchLog.Nodup
  cacheMinimal : ∀ p ∈ st.packageInfoCache, MinimalInfoB p.2 = true
  planKeys : ∀ e ∈ st.installationPlan,
    ∃ ent, lookupA st.dependencyMap (keyOf e) = some ent ∧
      versionSatisfies e.version ent.firstRange = true
  planNodup : (st.installationPlan.map keyOf).Nodup
  ledgerKeys : ∀ p ∈ st.versionUsageCount,
    p.1 = p.2.gName ++ "@" ++ p.2.gVersion ∧
      (parseSemVerL p.2.gVersion.data).isSome = true

/-- Every issued request is backed by a cache entry. This holds while no
fetch has failed; a failed fetch aborts the walk at once, so it is only
needed along the non-error path. -/
def FetchCachedInv (st : PlanState) : Prop :=
  ∀ n ∈ st.fetchLog, (lookupA st.packageInfoCache n).isSome = true

/-- The full invariant threaded through the non-error path. -/
def WalkInv (st : PlanState) : Prop := StCore st ∧ FetchCachedInv st

theorem minimizeResponse_minimal (d : CachedInfo) :
    MinimalInfoB (minimizeResponse d) = true := by
  simp only [MinimalInfoB, minimizeResponse, List.isEmpty_nil,
    Bool.true_and]
  rw [List.all_eq_true]
  intro p hp
  rw [List.mem_map] at hp
  obtain ⟨q, _, rfl⟩ := hp
  rfl

theorem minimizeResponseV3_minimal (d : CachedInfo) :
    MinimalInfoB (minimizeResponseV3 d) = true := by
  simp only [MinimalInfoB, minimizeResponseV3, List.isEmpty_nil,
    Bool.true_and]
  rw [List.all_eq_true]
  intro p hp
  rw [List.mem_map] at hp
  obtain ⟨q, _, rfl⟩ := hp
  rfl

/-- A case analysis of `getCachedPackageInfo`: cache hit, successful
fetch-and-minimise, or failed fetch. -/
theorem getCached_cases (reg : Registry) (n : String) (st : PlanState) :
    (∃ info, lookupA st.packageInfoCache n = some info ∧
       getCachedPackageInfo reg n st = (st, Except.ok info)) ∨
    (lookupA st.packageInfoCache n = none ∧
       ∃ allData, reg n = some allData ∧
         getCachedPackageInfo reg n st =
           ({ st with
              packageInfoCache := st.packageInfoCache ++
                [(n, minimizeResponse allData)],
              fetchLog := st.fetchLog ++ [n] },
            Except.ok (minimizeResponse allData))) ∨
    (lookupA st.packageInfoCache n = none ∧ reg n = none ∧
       getCachedPackageInfo reg n st =
         ({ st with fetchLog := st.fetchLog ++ [n] },
          Except.error (PlanError.fetchError n))) := by
  unfold getCachedPackageInfo
  cases hc : lookupA st.packageInfoCache n with
  | some info => left; exact ⟨info, rfl, rfl⟩
  | none =>
    cases hr : reg n with
    | some allData => right; left; exact ⟨rfl, allData, rfl, rfl⟩
    | none => right; right; exact ⟨rfl, rfl, rfl⟩

theorem getCached_frame (reg : Registry) (n : String) (st : PlanState) :
    (getCachedPackageInfo reg n st).1.installationPlan =
        st.installationPlan ∧
    (getCachedPackageInfo reg n st).1.dependencyMap = st.dependencyMap ∧
    (getCachedPackageInfo reg n st).1.versionUsageCount =
        st.versionUsageCount := by
  rcases getCached_cases reg n st with ⟨i, _, he⟩ | ⟨_, d, _, he⟩ |
      ⟨_, _, he⟩ <;>
    rw [he] <;> exact ⟨rfl, rfl, rfl⟩

theorem getCached_invs (reg : Registry) (n : String) (st : PlanState)
    (h : WalkInv st) :
    (∀ st2 info, getCachedPackageInfo reg n st = (st2, Except.ok info) →
      WalkInv st2) ∧
    (∀ st2 e, getCachedPackageInfo reg n st = (st2, Except.error e) →
      StCore st2) := by
  obtain ⟨hc, hf⟩ := h
  rcases getCached_cases reg n st with ⟨i, hl, he⟩ | ⟨hl, d, hr, he⟩ |
      ⟨hl, hr, he⟩
  · constructor
    · intro st2 info heq
      rw [he] at heq
      injection heq with h1 h2
      subst h1
      exact ⟨hc, hf⟩
    · intro st2 e heq
      rw [he] at heq
      injection heq with h1 h2
      exact absurd h2 (by simp)
  · have hnot : n ∉ st.fetchLog := by
      intro hm
      have := hf n hm
      rw [hl] at this
      simp at this
    constructor
    · intro st2 info heq
      rw [he] at heq
      injection heq with h1 h2
      subst h1
      constructor
      · constructor
        · exact (nodup_append_single _ _).mpr ⟨hc.fetchNodup, hnot⟩
        · intro p hp
          rcases List.mem_append.mp hp with h1 | h1
          · exact hc.cacheMinimal p h1
          · rw [List.mem_singleton.mp h1]
            exact minimizeResponse_minimal d
        · exact hc.planKeys
        · exact hc.planNodup
        · exact hc.ledgerKeys
      · intro m hm
        rcases List.mem_append.mp hm with h1 | h1
        · have := hf m h1
          cases hx : lookupA st.packageInfoCache m with
          | none => rw [hx] at this; simp at this
          | some v =>
            rw [lookupA_append_left _ _ _ _ hx]
            rfl
        · rw [List.mem_singleton.mp h1]
          rw [lookupA_append_right _ _ _ hl, lookupA_singleton]
          rfl
    · intro st2 e heq
      rw [he] at heq
      injection heq with h1 h2
      exact absurd h2 (by simp)
  · have hnot : n ∉ st.fetchLog := by
      intro hm
      have := hf n hm
      rw [hl] at this
      simp at this
    constructor
    · intro st2 info heq
      rw [he] at heq
      injection heq with h1 h2
      exact absurd h2 (by simp)
    · intro st2 e heq
      rw [he] at heq
      injection heq with h1 h2
      subst h1
      constructor
      · exact (nodup_append_single _ _).mpr ⟨hc.fetchNodup, hnot⟩
      · exact hc.cacheMinimal
      · exact hc.planKeys
      · exact hc.planNodup
      · exact hc.ledgerKeys

theorem insertDep_core (st : PlanState) (depKey : String) (dep : Dependency)
    (pd : Option String) (hc : StCore st) :
    StCore (insertDep st depKey dep pd) := by
  constructor
  · exact hc.fetchNodup
  · exact hc.cacheMinimal
  · intro e he
    obtain ⟨ent, hl, hs⟩ := hc.planKeys e he
    exact ⟨ent, lookupA_append_left _ _ _ _ hl, hs⟩
  · exact hc.planNodup
  · exact hc.ledgerKeys

theorem insertDep_fetch (st : PlanState) (depKey : String)
    (dep : Dependency) (pd : Option String) (hf : FetchCachedInv st) :
    FetchCachedInv (insertDep st depKey dep pd) := hf

theorem bumpUsage_frame (st : PlanState) (name rv dir : String) :
    (bumpUsage st name rv dir).installationPlan = st.installationPlan ∧
    (bumpUsage st name rv dir).dependencyMap = st.dependencyMap ∧
    (bumpUsage st name rv dir).packageInfoCache = st.packageInfoCache ∧
    (bumpUsage st name rv dir).fetchLog = st.fetchLog := by
  unfold bumpUsage
  split <;> exact ⟨rfl, rfl, rfl, rfl⟩

theorem bumpUsage_core (st : PlanState) (name rv dir : String)
    (hc : StCore st) (hv : (parseSemVerL rv.data).isSome = true) :
    StCore (bumpUsage st name rv dir) := by
  unfold bumpUsage
  split
  · constructor
    · exact hc.fetchNodup
    · exact hc.cacheMinimal
    · exact hc.planKeys
    · exact hc.planNodup
    · intro p hp
      rw [List.mem_map] at hp
      obtain ⟨q, hq, rfl⟩ := hp
      have := hc.ledgerKeys q hq
      split
      · exact this
      · exact this
  · constructor
    · exact hc.fetchNodup
    · exact hc.cacheMinimal
    · exact hc.planKeys
    · exact hc.planNodup
    · intro p hp
      rcases List.mem_append.mp hp with h1 | h1
      · exact hc.ledgerKeys p h1
      · rw [List.mem_singleton.mp h1]
        exact ⟨rfl, hv⟩

theorem bumpUsage_fetch (st : PlanState) (name rv dir : String)
    (hf : FetchCachedInv st) : FetchCachedInv (bumpUsage st name rv dir) := by
  unfold FetchCachedInv at hf ⊢
  obtain ⟨_, _, h3, h4⟩ := bumpUsage_frame st name rv dir
  rw [h3, h4]
  exact hf

theorem pushPlanEntry_core (st : PlanState) (name rv : String)
    (pd : Option String) (ent : DepMapEntry) (hc : StCore st)
    (hl : lookupA st.dependencyMap (depKeyOf pd name) = some ent)
    (hsat : versionSatisfies rv ent.firstRange = true)
    (hfresh : ∀ e ∈ st.installationPlan, keyOf e ≠ depKeyOf pd name) :
    StCore (pushPlanEntry st name rv pd) := by
  constructor
  · exact hc.fetchNodup
  · exact hc.cacheMinimal
  · intro e he
    rcases List.mem_append.mp he with h1 | h1
    · exact hc.planKeys e h1
    · rw [List.mem_singleton.mp h1]
      exact ⟨ent, hl, hsat⟩
  · show ((st.installationPlan ++ [_]).map keyOf).Nodup
    rw [List.map_append]
    refine (nodup_append_single _ _).mpr ⟨hc.planNodup, ?_⟩
    intro hmem
    rw [List.mem_map] at hmem
    obtain ⟨e, he, hke⟩ := hmem
    exact hfresh e he hke
  · exact hc.ledgerKeys

theorem pushPlanEntry_fetch (st : PlanState) (name rv : String)
    (pd : Option String) (hf : FetchCachedInv st) :
    FetchCachedInv (pushPlanEntry st name rv pd) := hf

theorem initState_inv : WalkInv initState := by
  refine ⟨⟨?_, ?_, ?_, ?_, ?_⟩, ?_⟩ <;> simp [initState, FetchCachedInv]

/-! ## The walk preserves the invariant -/

theorem walk_inv (reg : Registry) (fuel : Nat) :
    ∀ job st, WalkInv st →
      StCore (walk (getCachedPackageInfo reg) fuel job st).1 ∧
      ((walk (getCachedPackageInfo reg) fuel job st).2 = none →
        WalkInv (walk (getCachedPackageInfo reg) fuel job st).1) := by
  induction fuel with
  | zero => intro job st h; exact ⟨h.1, fun _ => h⟩
  | succ n ih =>
    intro job st h
    cases job with
    | dep d pd =>
      simp only [walk]
      cases hk : lookupA st.dependencyMap (depKeyOf pd d.name) with
      | some existing =>
        dsimp only
        have hcore : StCore { st with
            dependencyMap := updateRange st.dependencyMap
              (depKeyOf pd d.name)
              (mergeRanges existing.versionRange d.version) } := by
          constructor
          · exact h.1.fetchNodup
          · exact h.1.cacheMinimal
          · intro e he
            obtain ⟨ent, hl, hs⟩ := h.1.planKeys e he
            refine ⟨(if keyOf e = depKeyOf pd d.name then
                { ent with versionRange :=
                    mergeRanges existing.versionRange d.version }
              else ent), ?_, ?_⟩
            · show lookupA (updateRange st.dependencyMap
                  (depKeyOf pd d.name)
                  (mergeRanges existing.versionRange d.version))
                  (keyOf e) = _
              rw [lookupA_updateRange, hl]
              rfl
            · by_cases hce : keyOf e = depKeyOf pd d.name
              · rw [if_pos hce]
                exact hs
              · rw [if_neg hce]
                exact hs
          · exact h.1.planNodup
          · exact h.1.ledgerKeys
        exact ⟨hcore, fun _ => ⟨hcore, h.2⟩⟩
      | none =>
        dsimp only
        have h1 : WalkInv (insertDep st (depKeyOf pd d.name) d pd) :=
          ⟨insertDep_core st _ d pd h.1, insertDep_fetch st _ d pd h.2⟩
        cases hg : getCachedPackageInfo reg d.name
            (insertDep st (depKeyOf pd d.name) d pd) with
        | mk st2 r =>
          cases r with
          | error e2 =>
            dsimp only
            exact ⟨(getCached_invs reg d.name _ h1).2 st2 e2 hg,
              fun habs => by simp at habs⟩
          | ok info =>
            dsimp only
            have h2 : WalkInv st2 := (getCached_invs reg d.name _ h1).1 st2 info hg
            cases hm : maxSatisfying (info.versions.map Prod.fst) d.version with
            | none =>
              dsimp only
              exact ⟨h2.1, fun habs => by simp at habs⟩
            | some rv =>
              dsimp only
              have hfr := getCached_frame reg d.name
                (insertDep st (depKeyOf pd d.name) d pd)
              rw [hg] at hfr
              have hlk : lookupA st2.dependencyMap (depKeyOf pd d.name) =
                  some { name := d.name, versionRange := some d.version,
                         parentDirectory := pd, firstRange := d.version } := by
                rw [hfr.2.1]
                show lookupA (st.dependencyMap ++ [_]) _ = _
                rw [lookupA_append_right _ _ _ hk, lookupA_singleton]
              have hsat : versionSatisfies rv d.version = true :=
                maxSatisfying_versionSatisfies _ _ _ hm
              have hparse : (parseSemVerL rv.data).isSome = true := by
                obtain ⟨_, pv, hp, _⟩ := maxSatisfying_spec _ _ _ hm
                rw [hp]
                rfl
              have h3 : WalkInv (bumpUsage st2 d.name rv (jsOrRoot pd)) :=
                ⟨bumpUsage_core st2 d.name rv _ h2.1 hparse,
                 bumpUsage_fetch st2 d.name rv _ h2.2⟩
              have hbf := bumpUsage_frame st2 d.name rv (jsOrRoot pd)
              have hfresh : ∀ e ∈ (bumpUsage st2 d.name rv
                  (jsOrRoot pd)).installationPlan,
                  keyOf e ≠ depKeyOf pd d.name := by
                intro e he hkeq
                rw [hbf.1, hfr.1] at he
                obtain ⟨ent, hl, _⟩ := h.1.planKeys e he
                rw [hkeq, hk] at hl
                exact absurd hl (by simp)
              have hlk3 : lookupA (bumpUsage st2 d.name rv
                  (jsOrRoot pd)).dependencyMap (depKeyOf pd d.name) =
                  some { name := d.name, versionRange := some d.version,
                         parentDirectory := pd, firstRange := d.version } := by
                rw [hbf.2.1]
                exact hlk
              have h4 : WalkInv (pushPlanEntry
                  (bumpUsage st2 d.name rv (jsOrRoot pd)) d.name rv pd) :=
                ⟨pushPlanEntry_core _ d.name rv pd _ h3.1 hlk3 hsat hfresh,
                 pushPlanEntry_fetch _ d.name rv pd h3.2⟩
              exact ih (Job.children d.name pd (depsOfVersion info rv)) _ h4
    | children dn pd ds =>
      cases ds with
      | nil =>
        simp only [walk]
        exact ⟨h.1, fun _ => h⟩
      | cons cd rest =>
        obtain ⟨cn, cr⟩ := cd
        simp only [walk]
        cases hw : walk (getCachedPackageInfo reg) n
            (Job.dep { name := cn, version := cr }
              (some (childDirOf pd dn))) st with
        | mk st2 r =>
          have hih := ih (Job.dep { name := cn, version := cr }
            (some (childDirOf pd dn))) st h
          rw [hw] at hih
          cases r with
          | some e =>
            dsimp only
            exact ⟨hih.1, fun habs => by simp at habs⟩
          | none =>
            dsimp only
            exact ih (Job.children dn pd rest) st2 (hih.2 rfl)

theorem topLevel_inv (reg : Registry) (fuel : Nat) :
    ∀ (deps : List (String × String)) (st : PlanState), WalkInv st →
      StCore (processTopLevelDeps (getCachedPackageInfo reg) fuel deps st).1 ∧
      ((processTopLevelDeps (getCachedPackageInfo reg) fuel deps st).2 =
          none →
        WalkInv (processTopLevelDeps (getCachedPackageInfo reg) fuel deps
          st).1) := by
  intro deps
  induction deps with
  | nil => intro st h; exact ⟨h.1, fun _ => h⟩
  | cons p rest ih =>
    obtain ⟨nm, vr⟩ := p
    intro st h
    simp only [processTopLevelDeps]
    cases hw : walk (getCachedPackageInfo reg) fuel
        (Job.dep { name := nm, version := vr } none) st with
    | mk st2 r =>
      have hih := walk_inv reg fuel (Job.dep { name := nm, version := vr }
        none) st h
      rw [hw] at hih
      cases r with
      | some e =>
        dsimp only
        exact ⟨hih.1, fun habs => by simp at habs⟩
      | none =>
        dsimp only
        exact ih st2 (hih.2 rfl)

/-- The post-hoist state of `runPlan` differs from the walk's final state
only in `installationPlan`; on errors it is the walk's state itself. So
the ghost fetch log, metadata cache, dependency map and usage ledger of
the full run are those of the walk. -/
theorem runPlan_ghost_eq (reg : Registry) (fuel : Nat)
    (deps : List (String × String)) :
    (runPlan reg fuel deps).1.fetchLog =
        (processTopLevelDeps (getCachedPackageInfo reg) fuel deps
          initState).1.fetchLog ∧
    (runPlan reg fuel deps).1.packageInfoCache =
        (processTopLevelDeps (getCachedPackageInfo reg) fuel deps
          initState).1.packageInfoCache ∧
    (runPlan reg fuel deps).1.versionUsageCount =
        (processTopLevelDeps (getCachedPackageInfo reg) fuel deps
          initState).1.versionUsageCount ∧
    (runPlan reg fuel deps).1.dependencyMap =
        (processTopLevelDeps (getCachedPackageInfo reg) fuel deps
          initState).1.dependencyMap := by
  unfold runPlan
  cases hr : processTopLevelDeps (getCachedPackageInfo reg) fuel deps
      initState with
  | mk st r =>
    cases r with
    | some e => exact ⟨rfl, rfl, rfl, rfl⟩
    | none => exact ⟨rfl, rfl, rfl, rfl⟩

/-! ## Lemmas about the hoisting pass -/

theorem hoistPass_mono (L : List (String × PackageVersionInfo)) :
    ∀ (P : List PlanEntry) (e : PlanEntry), e ∈ P → e ∈ hoistPass L P := by
  induction L with
  | nil => intro P e he; exact he
  | cons q rest ih =>
    obtain ⟨k, i⟩ := q
    intro P e he
    simp only [hoistPass]
    split
    · exact ih P e he
    · exact ih _ e (List.mem_append_left _ he)

theorem hoistPass_covers (L : List (String × PackageVersionInfo)) :
    ∀ (P : List PlanEntry) (k : String) (i : PackageVersionInfo),
      (k, i) ∈ L →
      (hoistPass L P).any (rootMatch (hoistName k) (hoistVersion k)) =
        true := by
  induction L with
  | nil => intro P k i hm; simp at hm
  | cons q rest ih =>
    obtain ⟨k0, i0⟩ := q
    intro P k i hm
    rcases List.mem_cons.mp hm with heq | hm2
    · injection heq with hk0 hi0
      subst hk0
      simp only [hoistPass]
      split
      · next hfound =>
        rw [List.any_eq_true] at hfound ⊢
        obtain ⟨e, he, hre⟩ := hfound
        exact ⟨e, hoistPass_mono rest P e he, hre⟩
      · rw [List.any_eq_true]
        have hmem2 : PlanEntry.mk (hoistName k) (hoistVersion k)
            (some "root") ∈
            hoistPass rest (P ++ [PlanEntry.mk (hoistName k)
              (hoistVersion k) (some "root")]) :=
          hoistPass_mono rest _ _
            (List.mem_append_right _ (List.mem_singleton_self _))
        exact ⟨_, hmem2, by simp [rootMatch]⟩
    · simp only [hoistPass]
      split
      · exact ih P k i hm2
      · exact ih _ k i hm2

theorem hoistPass_of_covered (L : List (String × PackageVersionInfo)) :
    ∀ (P : List PlanEntry),
      (∀ k i, (k, i) ∈ L →
        P.any (rootMatch (hoistName k) (hoistVersion k)) = true) →
      hoistPass L P = P := by
  induction L with
  | nil => intro P _; rfl
  | cons q rest ih =>
    obtain ⟨k0, i0⟩ := q
    intro P hcov
    simp only [hoistPass]
    rw [if_pos (hcov k0 i0 (List.mem_cons_self _ _))]
    exact ih P (fun k i hm => hcov k i (List.mem_cons_of_mem _ hm))

/-- The hoisting pass preserves distinctness of
`(name, version, parentDirectory)` triples: an entry is only appended
after `find` reported that no entry with that exact triple exists. -/
theorem hoistPass_nodup (L : List (String × PackageVersionInfo)) :
    ∀ (P : List PlanEntry), (P.map tripleOf).Nodup →
      ((hoistPass L P).map tripleOf).Nodup := by
  induction L with
  | nil => intro P h; exact h
  | cons q rest ih =>
    obtain ⟨k0, i0⟩ := q
    intro P h
    simp only [hoistPass]
    split
    · exact ih P h
    · next hnotfound =>
      refine ih _ ?_
      rw [List.map_append]
      refine (nodup_append_single _ _).mpr ⟨h, ?_⟩
      intro hmem
      rw [List.mem_map] at hmem
      obtain ⟨e, he, hte⟩ := hmem
      apply hnotfound
      rw [List.any_eq_true]
      refine ⟨e, he, ?_⟩
      simp only [tripleOf, Prod.mk.injEq] at hte
      obtain ⟨h1, h2, h3⟩ := hte
      simp [rootMatch, h1, h2, h3]

/-- Slot keys factor through the `(name, version, parentDirectory)`
triple, so distinct slot keys give distinct triples. -/
theorem tripleOf_nodup_of_keyOf (l : List PlanEntry)
    (h : (l.map keyOf).Nodup) : (l.map tripleOf).Nodup := by
  refine List.Nodup.of_map (fun t => depKeyOf t.2.2 t.1) ?_
  rw [List.map_map]
  exact h

/-! ## The claims -/

/-- C1, counterexample: with top-level `{"a": "1.0.0"}` where `a@1.0.0`
declares the nested dependency `{"a": "2.0.0"}`, the returned plan
contains the hoisted entry `(a, 2.0.0, "root")`, the slot
`(root, a)` was first sighted under the range `"1.0.0"` (recorded in the
dependency map), and `2.0.0` does not satisfy `"1.0.0"` — so not every
entry of the returned plan satisfies the range recorded at the first
sighting of its slot. -/
theorem claim1_counterexample :
    constructInstallationPlan ce1Reg 10 ce1Deps =
      Except.ok
        [{ name := "a", version := "1.0.0", parentDirectory := none },
         { name := "a", version := "2.0.0", parentDirectory := some "a" },
         { name := "a", version := "1.0.0", parentDirectory := some "root" },
         { name := "a", version := "2.0.0",
           parentDirectory := some "root" }] ∧
    keyOf { name := "a", version := "2.0.0",
            parentDirectory := some "root" } = "root##a" ∧
    lookupA (runPlan ce1Reg 10 ce1Deps).1.dependencyMap "root##a" =
      some { name := "a", versionRange := some "1.0.0",
             parentDirectory := none, firstRange := "1.0.0" } ∧
    versionSatisfies "2.0.0" "1.0.0" = false :=
  ⟨rfl, rfl, rfl, rfl⟩

/-- C1, amended: every entry appended by the dependency walk (the plan
as it stands before the Hoisting Pass) has a resolved version satisfying
the range recorded at the first sighting of its slot; entries appended
by the Hoisting Pass are exempt. -/
theorem claim1_walk_range_satisfaction (reg : Registry) (fuel : Nat)
    (deps : List (String × String)) (e : PlanEntry)
    (he : e ∈ (processTopLevelDeps (getCachedPackageInfo reg) fuel deps
      initState).1.installationPlan) :
    ∃ ent, lookupA (processTopLevelDeps (getCachedPackageInfo reg) fuel
        deps initState).1.dependencyMap (keyOf e) = some ent ∧
      versionSatisfies e.version ent.firstRange = true :=
  (topLevel_inv reg fuel deps initState initState_inv).1.planKeys e he

theorem claim1_walk_range_satisfaction_witness :
    (PlanEntry.mk "a" "1.2.0" none ∈
      (processTopLevelDeps (getCachedPackageInfo sc1Reg) 10 sc1Deps
        initState).1.installationPlan) ∧
    ∃ ent, lookupA (processTopLevelDeps (getCachedPackageInfo sc1Reg) 10
        sc1Deps initState).1.dependencyMap
        (keyOf (PlanEntry.mk "a" "1.2.0" none)) = some ent ∧
      versionSatisfies "1.2.0" ent.firstRange = true :=
  ⟨by decide,
   claim1_walk_range_satisfaction sc1Reg 10 sc1Deps _ (by decide)⟩

/-- C2: what the code actually does on Scenario 1. The dependency walk
produces exactly the single expected entry `(a, 1.2.0, undefined)`, but
the Hoisting Pass compares `parentDirectory === 'root'` against the
top-level entry's `undefined`, finds no match, and appends a duplicate
`(a, 1.2.0, 'root')` — contradicting the claim (and the code's own
comment) that the entry is found already present at root and no
duplicate is added. -/
theorem claim2_code_behavior :
    (processTopLevelDeps (getCachedPackageInfo sc1Reg) 10 sc1Deps
      initState).1.installationPlan =
      [{ name := "a", version := "1.2.0", parentDirectory := none }] ∧
    constructInstallationPlan sc1Reg 10 sc1Deps =
      Except.ok
        [{ name := "a", version := "1.2.0", parentDirectory := none },
         { name := "a", version := "1.2.0",
           parentDirectory := some "root" }] :=
  ⟨rfl, rfl⟩

/-- C3: for every run of `constructInstallationPlan` (any registry, any
fuel, any top-level map, failing or not) the ghost log of issued registry
requests has no duplicate package name — each name is fetched at most
once; repeat lookups are answered from `packageInfoCache`. -/
theorem claim3_fetch_once (reg : Registry) (fuel : Nat)
    (deps : List (String × String)) :
    (runPlan reg fuel deps).1.fetchLog.Nodup := by
  obtain ⟨hfl, _, _, _⟩ := runPlan_ghost_eq reg fuel deps
  rw [hfl]
  exact (topLevel_inv reg fuel deps initState initState_inv).1.fetchNodup

/-- C4: when `processDependency` sights a slot key that already has a
pending resolution, the entire effect is to replace that slot's stored
range with the re-validated disjunction of the old and new ranges and
return: the fetch capability is never invoked (the theorem holds for
every `f`), and the plan, metadata cache, fetch log, usage ledger and
every other map entry (including the slot's first-sighted range) are
unchanged. -/
theorem claim4_merge_frame (f : FetchFn) (fuel : Nat) (d : Dependency)
    (pd : Option String) (st : PlanState) (existing : DepMapEntry)
    (hk : lookupA st.dependencyMap (depKeyOf pd d.name) = some existing) :
    processDependency f (fuel + 1) d pd st =
      ({ st with
         dependencyMap := updateRange st.dependencyMap
           (depKeyOf pd d.name)
           (mergeRanges existing.versionRange d.version) }, none) := by
  unfold processDependency
  simp only [walk]
  rw [hk]

theorem claim4_merge_frame_witness :
    lookupA w4St.dependencyMap (depKeyOf none "a") =
      some { name := "a", versionRange := some "^1.0.0",
             parentDirectory := none, firstRange := "^1.0.0" } ∧
    processDependency (getCachedPackageInfo emptyReg) 5
        { name := "a", version := "1.2.3" } none w4St =
      ({ w4St with
         dependencyMap := updateRange w4St.dependencyMap
           (depKeyOf none "a") (mergeRanges (some "^1.0.0") "1.2.3") },
       none) :=
  ⟨rfl, claim4_merge_frame (getCachedPackageInfo emptyReg) 4
    { name := "a", version := "1.2.3" } none w4St _ rfl⟩

/-- C5: in any plan returned by `constructInstallationPlan`, no two
entries share the same `(name, version, parentDirectory)` triple. -/
theorem claim5_unique_triples (reg : Registry) (fuel : Nat)
    (deps : List (String × String)) (plan : List PlanEntry)
    (h : constructInstallationPlan reg fuel deps = Except.ok plan) :
    (plan.map tripleOf).Nodup := by
  unfold constructInstallationPlan runPlan at h
  cases hr : processTopLevelDeps (getCachedPackageInfo reg) fuel deps
      initState with
  | mk st r =>
    rw [hr] at h
    cases r with
    | some e =>
      dsimp only at h
      exact absurd h (by simp)
    | none =>
      dsimp only at h
      injection h with h1
      have hih := topLevel_inv reg fuel deps initState initState_inv
      rw [hr] at hih
      have hw : (st.installationPlan.map tripleOf).Nodup :=
        tripleOf_nodup_of_keyOf _ hih.1.planNodup
      rw [← h1]
      exact hoistPass_nodup _ _ hw

theorem claim5_unique_triples_witness :
    constructInstallationPlan sc1Reg 10 sc1Deps =
      Except.ok
        [{ name := "a", version := "1.2.0", parentDirectory := none },
         { name := "a", version := "1.2.0",
           parentDirectory := some "root" }] ∧
    (([{ name := "a", version := "1.2.0", parentDirectory := none },
       { name := "a", version := "1.2.0",
         parentDirectory := some "root" }] : List PlanEntry).map
      tripleOf).Nodup :=
  ⟨rfl, claim5_unique_triples sc1Reg 10 sc1Deps _ rfl⟩

/-- C6: the Hoisting Pass is idempotent — over any usage ledger, hoisting
the already-hoisted plan appends nothing, because after the first pass
every ledger key has a matching entry at install location `"root"`. -/
theorem claim6_hoist_idempotent (L : List (String × PackageVersionInfo))
    (P : List PlanEntry) :
    hoistPass L (hoistPass L P) = hoistPass L P :=
  hoistPass_of_covered L (hoistPass L P)
    (fun k i hm => hoistPass_covers L P k i hm)

/-- C7: if the dependency walk throws anywhere (a failed metadata fetch
or an unsatisfiable range at any visited node), then
`constructInstallationPlan` returns exactly that error and returns no
plan, not even a partial one. -/
theorem claim7_error_propagation (reg : Registry) (fuel : Nat)
    (deps : List (String × String)) (st : PlanState) (e : PlanError)
    (h : processTopLevelDeps (getCachedPackageInfo reg) fuel deps
      initState = (st, some e)) :
    constructInstallationPlan reg fuel deps = Except.error e ∧
    ∀ p, constructInstallationPlan reg fuel deps ≠ Except.ok p := by
  unfold constructInstallationPlan runPlan
  rw [h]
  refine ⟨rfl, fun p hp => ?_⟩
  dsimp only at hp
  exact absurd hp (by simp)

theorem claim7_error_propagation_witness :
    (processTopLevelDeps (getCachedPackageInfo c7Reg) 10 c7Deps
        initState).2 = some (PlanError.fetchError "b") ∧
    constructInstallationPlan c7Reg 10 c7Deps =
      Except.error (PlanError.fetchError "b") := by
  constructor
  · rfl
  · have h : processTopLevelDeps (getCachedPackageInfo c7Reg) 10 c7Deps
        initState =
        ((processTopLevelDeps (getCachedPackageInfo c7Reg) 10 c7Deps
          initState).1, some (PlanError.fetchError "b")) := rfl
    exact (claim7_error_propagation c7Reg 10 c7Deps _ _ h).1

/-- C8, counterexample: the `construct-plan.ts` variant of
`getCachedPackageInfo` stores the full registry response: after fetching
package `a` whose response carries a `description` field and a per-version
`dist` field, the cached value still contains both, so it is not
minimised to the versions/dependencies shape. -/
theorem claim8_counterexample :
    lookupA (getCachedPackageInfoV1 ce8Reg "a"
        initState).1.packageInfoCache "a" =
      some { versions := [("1.0.0", { dependencies := none,
                                      extra := ["dist"] })],
             extra := ["description"] } ∧
    MinimalInfoB { versions := [("1.0.0", { dependencies := none,
                                            extra := ["dist"] })],
                   extra := ["description"] } = false :=
  ⟨rfl, rfl⟩

/-- C8, amended: in the `part_000` resolver every value ever stored in
the metadata cache is minimised to the versions/dependencies shape, and
the `construct-plan-v3.ts` variant likewise stores only minimised values
(beyond whatever was seeded from the persistent cache file); only the
`construct-plan.ts` variant caches the full response. -/
theorem claim8_amended (reg : Registry) (fuel : Nat)
    (deps : List (String × String)) :
    (∀ p ∈ (runPlan reg fuel deps).1.packageInfoCache,
      MinimalInfoB p.2 = true) ∧
    (∀ (name : String) (st st2 : PlanState)
        (r : Except PlanError CachedInfo),
      getCachedPackageInfoV3 reg name st = (st2, r) →
      ∀ p ∈ st2.packageInfoCache,
        p ∈ st.packageInfoCache ∨ MinimalInfoB p.2 = true) := by
  constructor
  · obtain ⟨_, hcache, _, _⟩ := runPlan_ghost_eq reg fuel deps
    rw [hcache]
    exact (topLevel_inv reg fuel deps initState
      initState_inv).1.cacheMinimal
  · intro name st st2 r heq p hp
    unfold getCachedPackageInfoV3 at heq
    cases hc : lookupA st.packageInfoCache name with
    | some info =>
      rw [hc] at heq
      dsimp only at heq
      injection heq with h1 h2
      subst h1
      exact Or.inl hp
    | none =>
      rw [hc] at heq
      dsimp only at heq
      cases hr : reg name with
      | none =>
        rw [hr] at heq
        dsimp only at heq
        injection heq with h1 h2
        subst h1
        exact Or.inl hp
      | some d =>
        rw [hr] at heq
        dsimp only at heq
        injection heq with h1 h2
        subst h1
        rcases List.mem_append.mp hp with h3 | h3
        · exact Or.inl h3
        · rw [List.mem_singleton.mp h3]
          exact Or.inr (minimizeResponseV3_minimal d)

theorem claim8_amended_witness :
    MinimalInfoB
      { versions := [("1.0.0", { dependencies := none, extra := [] }),
                     ("1.2.0", { dependencies := none, extra := [] }),
                     ("2.0.0", { dependencies := none, extra := [] })],
        extra := [] } = true ∧
    MinimalInfoB
      { versions := [("1.0.0", { dependencies := some [], extra := [] })],
        extra := [] } = true := by
  constructor
  · exact (claim8_amended sc1Reg 10 sc1Deps).1
      ("a", { versions := [("1.0.0", { dependencies := none, extra := [] }),
                           ("1.2.0", { dependencies := none, extra := [] }),
                           ("2.0.0", { dependencies := none, extra := [] })],
              extra := [] }) (by decide)
  · have h := (claim8_amended ce8Reg 10 []).2 "a" initState _ _ rfl
      ("a", { versions := [("1.0.0", { dependencies := some [],
                                       extra := [] })],
              extra := [] }) (by decide)
    rcases h with h | h
    · exact absurd h (by simp [initState])
    · exact h

/-- C9: every usage-ledger record created by a run has key
`gName ++ "@" ++ gVersion` for its ghost name/version; when the package
name contains no `@`, the hoisting pass's `split('@')` recovers exactly
that name and that resolved version from the key. -/
theorem claim9_ledger_split (reg : Registry) (fuel : Nat)
    (deps : List (String × String)) (k : String) (i : PackageVersionInfo)
    (hm : (k, i) ∈ (runPlan reg fuel deps).1.versionUsageCount)
    (hname : '@' ∉ i.gName.data) :
    hoistName k = i.gName ∧ hoistVersion k = i.gVersion := by
  obtain ⟨_, _, hledger, _⟩ := runPlan_ghost_eq reg fuel deps
  rw [hledger] at hm
  have hli := (topLevel_inv reg fuel deps initState
    initState_inv).1.ledgerKeys (k, i) hm
  have hli1 : k = i.gName ++ "@" ++ i.gVersion := hli.1
  have hli2 : (parseSemVerL i.gVersion.data).isSome = true := hli.2
  have hverAt : '@' ∉ i.gVersion.data := by
    cases hp : parseSemVerL i.gVersion.data with
    | none => rw [hp] at hli2; exact absurd hli2 (by simp)
    | some v => exact parseSemVer_no_at _ v hp
  rw [hli1]
  exact hoist_split_recovers i.gName i.gVersion hname hverAt

theorem claim9_ledger_split_witness :
    (("a@1.2.0", PackageVersionInfo.mk 1 ["root"] "a" "1.2.0") ∈
      (runPlan sc1Reg 10 sc1Deps).1.versionUsageCount) ∧
    ('@' ∉ "a".data) ∧
    hoistName "a@1.2.0" = "a" ∧ hoistVersion "a@1.2.0" = "1.2.0" := by
  refine ⟨by decide, by decide, ?_, ?_⟩
  · exact (claim9_ledger_split sc1Reg 10 sc1Deps "a@1.2.0"
      (PackageVersionInfo.mk 1 ["root"] "a" "1.2.0") (by decide)
      (by decide)).1
  · exact (claim9_ledger_split sc1Reg 10 sc1Deps "a@1.2.0"
      (PackageVersionInfo.mk 1 ["root"] "a" "1.2.0") (by decide)
      (by decide)).2

/-- C10: on an empty top-level dependency map both
`constructInstallationPlan` variants return the empty plan, issue no
registry request (empty fetch log), and the persistent-cache variant
performs no cache-file write. -/
theorem claim10_empty (reg : Registry) (fuel : Nat)
    (fileCache : List (String × CachedInfo)) :
    constructInstallationPlan reg fuel [] = Except.ok [] ∧
    (runPlan reg fuel []).1.fetchLog = [] ∧
    constructInstallationPlanV3 reg fileCache fuel [] = Except.ok [] ∧
    (runPlanV3 reg fileCache fuel []).1.fetchLog = [] ∧
    (runPlanV3 reg fileCache fuel []).1.persistentWrites = 0 :=
  ⟨rfl, rfl, rfl, rfl, rfl⟩
